import Mathlib

/-!
Verification of the visgression aggregation core (src/main.rs).

The Rust code stores data in `BTreeMap`s; we embed a `BTreeMap K V` as an
association list `List (K × V)` kept strictly sorted by a boolean comparison
`lt : K → K → Bool`, so that iteration order (ascending keys) is the list
order, exactly as in `BTreeMap`.  `f64` metric values are embedded as `ℚ`:
the claims under study are about which additions and divisions the code
performs and in which order, not about rounding, and `ℚ` keeps every such
expression exact and decidable.
-/

/-- `FactorioVersion` comes from the external `megabase_index_incrementer`
crate.  Modelled from the spec: "ordered triple (major, minor, patch),
natural numbers. Total order: lexicographic on (major, minor, patch)". -/
structure FactorioVersion where
  major : Nat
  minor : Nat
  patch : Nat
deriving DecidableEq

/-- Constructor mirroring `FactorioVersion::new`. -/
def FactorioVersion.new (ma mi pa : Nat) : FactorioVersion := ⟨ma, mi, pa⟩

/-- Lexicographic strict order on versions (the crate's derived `Ord`),
modelled from the spec's "lexicographic on (major, minor, patch)". -/
def FactorioVersion.blt (a b : FactorioVersion) : Bool :=
  decide (a.major < b.major) ||
    (decide (a.major = b.major) &&
      (decide (a.minor < b.minor) ||
        (decide (a.minor = b.minor) && decide (a.patch < b.patch))))

theorem fv_blt_irrefl (a : FactorioVersion) : a.blt a = false := by
  simp [FactorioVersion.blt]

theorem fv_blt_trans {a b c : FactorioVersion}
    (h1 : a.blt b = true) (h2 : b.blt c = true) : a.blt c = true := by
  cases a; cases b; cases c
  simp only [FactorioVersion.blt, Bool.or_eq_true, Bool.and_eq_true,
    decide_eq_true_eq] at h1 h2 ⊢
  omega

theorem fv_blt_connex {a b : FactorioVersion}
    (h1 : a.blt b = false) (h2 : b.blt a = false) : a = b := by
  cases a; cases b
  simp only [FactorioVersion.blt, Bool.or_eq_false_iff, Bool.and_eq_false_iff,
    decide_eq_false_iff_not, decide_eq_true_eq] at h1 h2
  simp only [FactorioVersion.mk.injEq]
  omega

/-- `struct MapInfo { map_name: String, sha256: String }` (src/main.rs:72-76). -/
structure MapInfo where
  map_name : String
  sha256 : String
deriving DecidableEq

/-- The derived lexicographic `Ord` on `MapInfo`, field order
(`map_name`, `sha256`). -/
def MapInfo.blt (a b : MapInfo) : Bool :=
  decide (a.map_name < b.map_name) ||
    (decide (a.map_name = b.map_name) && decide (a.sha256 < b.sha256))

theorem mi_blt_irrefl (a : MapInfo) : a.blt a = false := by
  simp [MapInfo.blt]

theorem mi_blt_trans {a b c : MapInfo}
    (h1 : a.blt b = true) (h2 : b.blt c = true) : a.blt c = true := by
  simp only [MapInfo.blt, Bool.or_eq_true, Bool.and_eq_true,
    decide_eq_true_eq] at h1 h2 ⊢
  rcases h1 with h1 | ⟨h1e, h1s⟩ <;> rcases h2 with h2 | ⟨h2e, h2s⟩
  · exact Or.inl (lt_trans h1 h2)
  · exact Or.inl (h2e ▸ h1)
  · exact Or.inl (h1e ▸ h2)
  · exact Or.inr ⟨h1e.trans h2e, lt_trans h1s h2s⟩

theorem mi_blt_connex {a b : MapInfo}
    (h1 : a.blt b = false) (h2 : b.blt a = false) : a = b := by
  cases a; cases b
  simp only [MapInfo.blt, Bool.or_eq_false_iff, Bool.and_eq_false_iff,
    decide_eq_false_iff_not, decide_eq_true_eq] at h1 h2
  simp only [MapInfo.mk.injEq]
  obtain ⟨hn1, hs1⟩ := h1
  obtain ⟨hn2, hs2⟩ := h2
  have hname : _ = _ := le_antisymm (not_lt.mp hn2) (not_lt.mp hn1)
  refine ⟨hname, ?_⟩
  rcases hs1 with h | h
  · exact absurd hname h
  · rcases hs2 with h2 | h2
    · exact absurd hname.symm h2
    · exact le_antisymm (not_lt.mp h2) (not_lt.mp h)

/-- `struct AvgData` (src/main.rs:46-56): nine `f64` metrics, embedded as `ℚ`. -/
structure AvgData where
  wholeUpdate : ℚ
  circuitNetworkUpdate : ℚ
  transportLinesUpdate : ℚ
  fluidsUpdate : ℚ
  entityUpdate : ℚ
  electricNetworkUpdate : ℚ
  logisticManagerUpdate : ℚ
  trains : ℚ
  trainPathFinder : ℚ
deriving DecidableEq

/-- `impl AddAssign for AvgData` (src/main.rs:58-70): fieldwise addition. -/
def AvgData.add (a b : AvgData) : AvgData :=
  ⟨a.wholeUpdate + b.wholeUpdate,
   a.circuitNetworkUpdate + b.circuitNetworkUpdate,
   a.transportLinesUpdate + b.transportLinesUpdate,
   a.fluidsUpdate + b.fluidsUpdate,
   a.entityUpdate + b.entityUpdate,
   a.electricNetworkUpdate + b.electricNetworkUpdate,
   a.logisticManagerUpdate + b.logisticManagerUpdate,
   a.trains + b.trains,
   a.trainPathFinder + b.trainPathFinder⟩

instance : Add AvgData := ⟨AvgData.add⟩

/-- `#[derive(Default)]`: all metrics zero. -/
instance : Inhabited AvgData := ⟨⟨0, 0, 0, 0, 0, 0, 0, 0, 0⟩⟩

/-- Fieldwise division by a count, as in the `Transform to avg` block
(src/main.rs:195-207) where every field is divided by the same
`maps_per_checkpoint_inner_fv` count. -/
def AvgData.divCt (a : AvgData) (n : Nat) : AvgData :=
  ⟨a.wholeUpdate / n,
   a.circuitNetworkUpdate / n,
   a.transportLinesUpdate / n,
   a.fluidsUpdate / n,
   a.entityUpdate / n,
   a.electricNetworkUpdate / n,
   a.logisticManagerUpdate / n,
   a.trains / n,
   a.trainPathFinder / n⟩

theorem AvgData.zero_add (a : AvgData) : default + a = a := by
  cases a
  show AvgData.add ⟨0, 0, 0, 0, 0, 0, 0, 0, 0⟩ _ = _
  simp [AvgData.add]

theorem AvgData.add_assoc (a b c : AvgData) : a + b + c = a + (b + c) := by
  cases a; cases b; cases c
  show AvgData.add (AvgData.add _ _) _ = AvgData.add _ (AvgData.add _ _)
  simp only [AvgData.add, AvgData.mk.injEq]
  refine ⟨?_, ?_, ?_, ?_, ?_, ?_, ?_, ?_, ?_⟩ <;> ring

section AssocList

variable {K : Type} {V : Type} [DecidableEq K]

/-- Lookup in an association list (`BTreeMap::get` / `contains_key`). -/
def alookup (k : K) : List (K × V) → Option V
  | [] => none
  | p :: rest => if p.1 = k then some p.2 else alookup k rest

/-- `BTreeMap::entry(k)`-style update: replace the value at `k` by
`f (some old)`, or insert `f none` at the sorted position if absent. -/
def aalter (lt : K → K → Bool) (k : K) (f : Option V → V) :
    List (K × V) → List (K × V)
  | [] => [(k, f none)]
  | p :: rest =>
    if k = p.1 then (k, f (some p.2)) :: rest
    else if lt k p.1 then (k, f none) :: p :: rest
    else p :: aalter lt k f rest

/-- Strictly ascending keys: the invariant of a `BTreeMap` embedding. -/
def ASorted (lt : K → K → Bool) (l : List (K × V)) : Prop :=
  List.Pairwise (fun a b => lt a.1 b.1 = true) l

variable {lt : K → K → Bool}

theorem alookup_eq_none {k : K} {l : List (K × V)}
    (h : ∀ p ∈ l, p.1 ≠ k) : alookup k l = none := by
  induction l with
  | nil => rfl
  | cons p rest ih =>
    simp only [alookup]
    rw [if_neg (h p (List.mem_cons_self p rest))]
    exact ih fun q hq => h q (List.mem_cons_of_mem p hq)

theorem keys_aalter {k k' : K} {f : Option V → V} {l : List (K × V)}
    (h : k' ∈ (aalter lt k f l).map Prod.fst) :
    k' = k ∨ k' ∈ l.map Prod.fst := by
  induction l with
  | nil => simpa [aalter] using h
  | cons p rest ih =>
    simp only [aalter] at h
    split at h
    · simp only [List.map_cons, List.mem_cons] at h ⊢
      rcases h with h | h
      · exact Or.inl h
      · exact Or.inr (Or.inr h)
    · split at h
      · simp only [List.map_cons, List.mem_cons] at h ⊢
        rcases h with h | h | h
        · exact Or.inl h
        · exact Or.inr (Or.inl h)
        · exact Or.inr (Or.inr h)
      · simp only [List.map_cons, List.mem_cons] at h ⊢
        rcases h with h | h
        · exact Or.inr (Or.inl h)
        · rcases ih h with h | h
          · exact Or.inl h
          · exact Or.inr (Or.inr h)

theorem aalter_sorted
    (htr : ∀ {a b c : K}, lt a b = true → lt b c = true → lt a c = true)
    (hconn : ∀ {a b : K}, lt a b = false → lt b a = false → a = b)
    {k : K} {f : Option V → V} {l : List (K × V)} (hs : ASorted lt l) :
    ASorted lt (aalter lt k f l) := by
  induction l with
  | nil => simp [aalter, ASorted]
  | cons p rest ih =>
    rw [ASorted, List.pairwise_cons] at hs
    obtain ⟨hhead, hrest⟩ := hs
    simp only [aalter]
    by_cases heq : k = p.1
    · rw [if_pos heq, ASorted, List.pairwise_cons]
      exact ⟨fun q hq => heq ▸ hhead q hq, hrest⟩
    · rw [if_neg heq]
      by_cases hlt : lt k p.1 = true
      · rw [if_pos hlt, ASorted, List.pairwise_cons]
        refine ⟨?_, List.pairwise_cons.mpr ⟨hhead, hrest⟩⟩
        intro q hq
        rcases List.mem_cons.mp hq with hq | hq
        · exact hq ▸ hlt
        · exact htr hlt (hhead q hq)
      · rw [if_neg hlt]
        have hkp : lt k p.1 = false := by
          cases h : lt k p.1
          · rfl
          · exact absurd h hlt
        have hplt : lt p.1 k = true := by
          cases h : lt p.1 k
          · exact absurd (hconn hkp h) heq
          · rfl
        rw [ASorted, List.pairwise_cons]
        refine ⟨?_, ih hrest⟩
        intro q hq
        rcases keys_aalter (List.mem_map_of_mem Prod.fst hq) with h | h
        · exact h ▸ hplt
        · obtain ⟨q', hq', hq'eq⟩ := List.mem_map.mp h
          exact hq'eq ▸ hhead q' hq'

theorem alookup_aalter_self
    (hirr : ∀ a : K, lt a a = false)
    (htr : ∀ {a b c : K}, lt a b = true → lt b c = true → lt a c = true)
    {k : K} {f : Option V → V} {l : List (K × V)} (hs : ASorted lt l) :
    alookup k (aalter lt k f l) = some (f (alookup k l)) := by
  induction l with
  | nil => simp [aalter, alookup]
  | cons p rest ih =>
    rw [ASorted, List.pairwise_cons] at hs
    obtain ⟨hhead, hrest⟩ := hs
    simp only [aalter]
    by_cases heq : k = p.1
    · rw [if_pos heq]
      simp [alookup, heq]
    · rw [if_neg heq]
      by_cases hlt : lt k p.1 = true
      · rw [if_pos hlt]
        have hnone : alookup k (p :: rest) = none := by
          apply alookup_eq_none
          intro q hq
          rcases List.mem_cons.mp hq with hq | hq
          · rw [hq]
            exact fun he => heq he.symm
          · intro he
            have h2 := hhead q hq
            rw [he] at h2
            have h3 := htr hlt h2
            rw [hirr k] at h3
            exact Bool.false_ne_true h3
        rw [hnone]
        simp [alookup]
      · rw [if_neg hlt]
        have hpk : ¬(p.1 = k) := fun he => heq he.symm
        simp only [alookup, if_neg hpk]
        exact ih hrest

theorem alookup_aalter_ne {k k' : K} {f : Option V → V} {l : List (K × V)}
    (hne : k' ≠ k) : alookup k' (aalter lt k f l) = alookup k' l := by
  induction l with
  | nil =>
    simp only [aalter, alookup]
    rw [if_neg (fun h => hne h.symm)]
  | cons p rest ih =>
    simp only [aalter]
    by_cases heq : k = p.1
    · rw [if_pos heq]
      simp only [alookup]
      rw [if_neg (fun h => hne h.symm), ← heq]
      rw [if_neg (fun h => hne h.symm)]
    · rw [if_neg heq]
      by_cases hlt : lt k p.1 = true
      · rw [if_pos hlt]
        simp only [alookup]
        rw [if_neg (fun h => hne h.symm)]
      · rw [if_neg hlt]
        simp only [alookup]
        by_cases hpk : p.1 = k'
        · rw [if_pos hpk, if_pos hpk]
        · rw [if_neg hpk, if_neg hpk]
          exact ih

theorem alookup_of_mem
    (hirr : ∀ a : K, lt a a = false)
    {k : K} {v : V} {l : List (K × V)}
    (hs : ASorted lt l) (hmem : (k, v) ∈ l) : alookup k l = some v := by
  induction l with
  | nil => cases hmem
  | cons p rest ih =>
    rw [ASorted, List.pairwise_cons] at hs
    obtain ⟨hhead, hrest⟩ := hs
    rcases List.mem_cons.mp hmem with hmem | hmem
    · simp [alookup, ← hmem]
    · have hne : p.1 ≠ k := by
        intro he
        have h2 := hhead (k, v) hmem
        rw [he, hirr k] at h2
        exact Bool.false_ne_true h2
      simp only [alookup, if_neg hne]
      exact ih hrest hmem

theorem mem_of_alookup {k : K} {v : V} {l : List (K × V)}
    (h : alookup k l = some v) : (k, v) ∈ l := by
  induction l with
  | nil => cases h
  | cons p rest ih =>
    simp only [alookup] at h
    split at h
    · rename_i heq
      cases h
      exact heq ▸ List.mem_cons_self p rest
    · exact List.mem_cons_of_mem p (ih h)

end AssocList

/-- `LAST_MINOR_VERSIONS` (src/main.rs:15-18). -/
def LAST_MINOR_VERSIONS : List FactorioVersion :=
  [FactorioVersion.new 0 16 51, FactorioVersion.new 0 17 79]

/-- `START_GRAPH_FV` (src/main.rs:20). -/
def START_GRAPH_FV : FactorioVersion := FactorioVersion.new 0 17 66

/-- `END_GRAPH_FV` (src/main.rs:21). -/
def END_GRAPH_FV : FactorioVersion := FactorioVersion.new 0 18 45

/-- The successor step inside the loop of `iter_factorio_versions`
(src/main.rs:30-35): a "last patch of this minor" sentinel advances the
minor and resets the patch, anything else advances the patch. -/
def succVersion (cur : FactorioVersion) : FactorioVersion :=
  if LAST_MINOR_VERSIONS.any (fun x => decide (x = cur)) then
    ⟨cur.major, cur.minor + 1, 0⟩
  else ⟨cur.major, cur.minor, cur.patch + 1⟩

/-- The loop of `iter_factorio_versions` (src/main.rs:28-39) with explicit
fuel: `none` means the loop exit condition was not reached within `fuel`
iterations. -/
def iter_fv_loop : Nat → FactorioVersion → Option (List FactorioVersion)
  | 0, _ => none
  | fuel + 1, cur =>
    let nxt := succVersion cur
    if END_GRAPH_FV.blt nxt then some [cur]
    else (iter_fv_loop fuel nxt).map (cur :: ·)

/-- `iter_factorio_versions` (src/main.rs:25-41). -/
def iter_factorio_versions : Option (List FactorioVersion) :=
  iter_fv_loop 100 START_GRAPH_FV

/-- `BTreeMap<MapInfo, BTreeMap<FactorioVersion, AvgData>>`. -/
abbrev SampleTable := List (MapInfo × List (FactorioVersion × AvgData))

/-- The `BTreeMap` representation invariant of a `SampleTable`: ascending
map identities, and each per-map series ascending in version. -/
def SortedTable (maps : SampleTable) : Prop :=
  ASorted MapInfo.blt maps ∧ ∀ mp ∈ maps, ASorted FactorioVersion.blt mp.2

/-- One mapped row of the `query_map` closure in `query_db`
(src/main.rs:104-127): version, averaged metrics, map identity. -/
abbrev Row := FactorioVersion × AvgData × MapInfo

/-- `query_db`'s row loop (src/main.rs:104-134): each row is checked against
the configured bounds (the two `assert!`s, modelled as errors since a failed
assertion aborts before any table is produced) and then inserted into the
per-map `BTreeMap`. -/
def query_db (rows : List Row) : Except String SampleTable :=
  rows.foldlM (fun maps row =>
    if END_GRAPH_FV.blt row.1 then
      Except.error "OutOfRangeVersion: exceeds END_GRAPH_FV"
    else if row.1.blt START_GRAPH_FV then
      Except.error "OutOfRangeVersion: precedes START_GRAPH_FV"
    else
      Except.ok (aalter MapInfo.blt row.2.2
        (fun o => aalter FactorioVersion.blt row.1 (fun _ => row.2.1) (o.getD []))
        maps)) []

/-- The `aggregation_versions` accumulation (src/main.rs:156-161): for every
map and every version it holds, bump that version's count. -/
def aggregation_versions (maps : SampleTable) : List (FactorioVersion × Nat) :=
  maps.foldl (fun acc mp =>
    mp.2.foldl (fun acc2 vp =>
      aalter FactorioVersion.blt vp.1 (fun o => o.getD 0 + 1) acc2) acc) []

/-- The checkpoint scan (src/main.rs:162-171): record a version whenever its
count strictly exceeds the running `prev_seen_ct`. -/
def checkpoints (maps : SampleTable) : List FactorioVersion :=
  ((aggregation_versions maps).foldl (fun acc p =>
    if acc.1 < p.2 then (p.2, acc.2 ++ [p.1]) else acc)
    ((0 : Nat), ([] : List FactorioVersion))).2

/-- One iteration of the outer checkpoint loop (src/main.rs:175-193): the
cohort pushed into `info_buckets`, the raw metric sums this checkpoint gets
in `checkpoint_buckets`, and the `maps_per_checkpoint_inner_fv` counts.
The count table is a `HashMap` in the source, used only through keyed
`get`s, so a key-sorted list is an observationally equal stand-in. -/
def process_checkpoint (maps : SampleTable) (checkpoint_fv : FactorioVersion) :
    List MapInfo × List (FactorioVersion × AvgData) × List (FactorioVersion × Nat) :=
  maps.foldl (fun acc mp =>
    if (alookup checkpoint_fv mp.2).isNone then acc
    else
      mp.2.foldl (fun a vp =>
        if vp.1.blt checkpoint_fv then a
        else (a.1,
          aalter FactorioVersion.blt vp.1 (fun o => o.getD default + vp.2) a.2.1,
          aalter FactorioVersion.blt vp.1 (fun o => o.getD 0 + 1) a.2.2))
        (acc.1 ++ [mp.1], acc.2.1, acc.2.2))
    ([], [], [])

/-- The `Transform to avg` block (src/main.rs:194-207): divide every bucket
entry fieldwise by that version's contributor count.  The source's
`.unwrap()`s are modelled by `getD`; the safety claim shows the defaults
are never reached for discovered checkpoints. -/
def checkpoint_avg (maps : SampleTable) (checkpoint_fv : FactorioVersion) :
    List (FactorioVersion × AvgData) :=
  let pc := process_checkpoint maps checkpoint_fv
  pc.2.1.map (fun p => (p.1, p.2.divCt ((alookup p.1 pc.2.2).getD 0)))

/-- The `info_buckets` BTreeMap after the checkpoint loop (src/main.rs:174,
181): checkpoints are visited in strictly increasing order, so keyed
insertion in loop order is an ordered append; a key is present exactly when
some map contained that checkpoint version. -/
def info_buckets (maps : SampleTable) : List (FactorioVersion × List MapInfo) :=
  (checkpoints maps).foldl (fun acc c =>
    let cohort := (process_checkpoint maps c).1
    if cohort.isEmpty then acc else acc ++ [(c, cohort)]) []

/-- The `checkpoint_buckets` BTreeMap after the checkpoint loop and the
averaging pass (src/main.rs:173, 189-207). -/
def checkpoint_buckets (maps : SampleTable) :
    List (FactorioVersion × List (FactorioVersion × AvgData)) :=
  (checkpoints maps).foldl (fun acc c =>
    let bucket := checkpoint_avg maps c
    if bucket.isEmpty then acc else acc ++ [(c, bucket)]) []

/-- `aggregate_maps` (src/main.rs:153-214).  The final step zips
`info_buckets` with `checkpoint_buckets` (src/main.rs:209-213), keeping the
first mapping's key and pairing positionally. -/
def aggregate_maps (maps : SampleTable) :
    List (FactorioVersion × (List MapInfo × List (FactorioVersion × AvgData))) :=
  List.zipWith (fun ip cp => (ip.1, (ip.2, cp.2)))
    (info_buckets maps) (checkpoint_buckets maps)

/-- The per-version data points pushed by `gen_svg` (src/main.rs:224-240),
including the derived "other" value, exactly as the source subtracts the
eight named sub-phases from `wholeUpdate` one by one. -/
def gen_svg_data_points (versions_data : List (FactorioVersion × AvgData)) :
    List (FactorioVersion × ℚ × String) :=
  versions_data.foldl (fun acc vp =>
    acc ++ [(vp.1, vp.2.entityUpdate, "entityUpdate"),
            (vp.1, vp.2.circuitNetworkUpdate, "circuitNetworkUpdate"),
            (vp.1, vp.2.transportLinesUpdate, "transportLinesUpdate"),
            (vp.1, vp.2.fluidsUpdate, "fluidsUpdate"),
            (vp.1, vp.2.electricNetworkUpdate, "electricNetworkUpdate"),
            (vp.1, vp.2.logisticManagerUpdate, "logisticManagerUpdate"),
            (vp.1, vp.2.trains, "trains"),
            (vp.1, vp.2.trainPathFinder, "trainPathFinder"),
            (vp.1, vp.2.wholeUpdate - vp.2.circuitNetworkUpdate -
              vp.2.transportLinesUpdate - vp.2.fluidsUpdate -
              vp.2.entityUpdate - vp.2.electricNetworkUpdate -
              vp.2.logisticManagerUpdate - vp.2.trains - vp.2.trainPathFinder,
              "other")]) []

/-- Number of maps holding a sample at `v` (spec: "count of maps holding a
sample at that version"). -/
def mapsCount (maps : SampleTable) (v : FactorioVersion) : Nat :=
  (maps.filter (fun mp => (alookup v mp.2).isSome)).length

/-- Spec-side cohort: "all MapIdentity values whose series contains the
checkpoint version as a key". -/
def specCohort (maps : SampleTable) (c : FactorioVersion) : List MapInfo :=
  (maps.filter (fun mp => (alookup c mp.2).isSome)).map (fun mp => mp.1)

/-- Spec-side per-version contributors for a checkpoint: the metric sets of
cohort members whose series contains `v`, in ascending MapIdentity order. -/
def specContribs (maps : SampleTable) (c v : FactorioVersion) : List AvgData :=
  (maps.filter (fun mp => (alookup c mp.2).isSome)).filterMap
    (fun mp => alookup v mp.2)

/-- Left fold sum of metric sets, starting from the all-zero record. -/
def sumAvg (l : List AvgData) : AvgData := l.foldl (· + ·) default

/-- Spec-side aggregated value at `v` for checkpoint `c`: pointwise sum of
the contributing members divided by the contributor count; absent below the
checkpoint or when no cohort member supplies `v`. -/
def specAvgAt (maps : SampleTable) (c v : FactorioVersion) : Option AvgData :=
  if v.blt c then none
  else if (specContribs maps c v).isEmpty then none
  else some ((sumAvg (specContribs maps c v)).divCt (specContribs maps c v).length)

instance aSortedDecidable {K V : Type} (lt : K → K → Bool) (l : List (K × V)) :
    Decidable (ASorted lt l) := by
  unfold ASorted
  exact List.instDecidablePairwise l

instance sortedTableDecidable (maps : SampleTable) : Decidable (SortedTable maps) := by
  unfold SortedTable
  exact instDecidableAnd

theorem alookup_tail_none {K V : Type} [DecidableEq K] {lt : K → K → Bool}
    (hirr : ∀ a : K, lt a a = false) {p : K × V} {l : List (K × V)}
    (hs : ASorted lt (p :: l)) : alookup p.1 l = none := by
  obtain ⟨hhead, _⟩ := List.pairwise_cons.mp hs
  apply alookup_eq_none
  intro q hq he
  have h2 := hhead q hq
  rw [he, hirr p.1] at h2
  exact Bool.false_ne_true h2

theorem sumAvg_nil : sumAvg [] = default := rfl

theorem foldl_add_avg (l : List AvgData) (s : AvgData) :
    l.foldl (· + ·) s = s + sumAvg l := by
  induction l generalizing s with
  | nil =>
    show s = s + default
    cases s
    show _ = AvgData.add _ ⟨0, 0, 0, 0, 0, 0, 0, 0, 0⟩
    simp [AvgData.add]
  | cons a rest ih =>
    show List.foldl _ (s + a) rest = s + sumAvg (a :: rest)
    have h1 : sumAvg (a :: rest) = a + sumAvg rest := by
      show List.foldl _ (default + a) rest = _
      rw [AvgData.zero_add, ih a]
    rw [ih (s + a), h1, AvgData.add_assoc]

theorem sumAvg_cons (a : AvgData) (l : List AvgData) :
    sumAvg (a :: l) = a + sumAvg l := by
  show List.foldl _ (default + a) l = _
  rw [AvgData.zero_add, foldl_add_avg]

theorem zipWith_map_same {α β γ δ : Type} (f : β → γ → δ) (g1 : α → β)
    (g2 : α → γ) (l : List α) :
    List.zipWith f (l.map g1) (l.map g2) = l.map (fun a => f (g1 a) (g2 a)) := by
  induction l with
  | nil => rfl
  | cons a rest ih => simp [ih]

theorem alookup_map_values {K V W : Type} [DecidableEq K]
    (g : K → V → W) (l : List (K × V)) (k : K) :
    alookup k (l.map (fun p => (p.1, g p.1 p.2))) = (alookup k l).map (g k) := by
  induction l with
  | nil => rfl
  | cons p rest ih =>
    simp only [List.map_cons, alookup]
    by_cases hk : p.1 = k
    · rw [if_pos hk, if_pos hk, hk]
      rfl
    · rw [if_neg hk, if_neg hk]
      exact ih

theorem foldl_append_of_guard_false {α β : Type} (g : α → β) (p : α → Bool)
    (l : List α) (acc : List β) (h : ∀ c ∈ l, p c = false) :
    l.foldl (fun acc c => if p c then acc else acc ++ [g c]) acc = acc ++ l.map g := by
  induction l generalizing acc with
  | nil => simp
  | cons c rest ih =>
    have hc : ¬(p c = true) := by
      rw [h c (List.mem_cons_self c rest)]
      exact Bool.false_ne_true
    rw [List.foldl_cons, if_neg hc,
      ih (acc ++ [g c]) (fun x hx => h x (List.mem_cons_of_mem c hx))]
    simp

theorem fv_aalter_sorted {V : Type} {k : FactorioVersion} {f : Option V → V}
    {l : List (FactorioVersion × V)} (hs : ASorted FactorioVersion.blt l) :
    ASorted FactorioVersion.blt (aalter FactorioVersion.blt k f l) := by
  apply aalter_sorted _ _ hs
  · intro a b c h1 h2
    exact fv_blt_trans h1 h2
  · intro a b h1 h2
    exact fv_blt_connex h1 h2

theorem fv_alookup_aalter_self {V : Type} {k : FactorioVersion} {f : Option V → V}
    {l : List (FactorioVersion × V)} (hs : ASorted FactorioVersion.blt l) :
    alookup k (aalter FactorioVersion.blt k f l) = some (f (alookup k l)) := by
  apply alookup_aalter_self fv_blt_irrefl _ hs
  intro a b c h1 h2
  exact fv_blt_trans h1 h2

theorem inner_count_fold_sorted (vd : List (FactorioVersion × AvgData))
    (acc : List (FactorioVersion × Nat)) (hacc : ASorted FactorioVersion.blt acc) :
    ASorted FactorioVersion.blt (vd.foldl (fun acc2 vp =>
      aalter FactorioVersion.blt vp.1 (fun o => o.getD 0 + 1) acc2) acc) := by
  induction vd generalizing acc with
  | nil => exact hacc
  | cons vp rest ih => exact ih _ (fv_aalter_sorted hacc)

theorem inner_count_fold (vd : List (FactorioVersion × AvgData))
    (hvd : ASorted FactorioVersion.blt vd)
    (acc : List (FactorioVersion × Nat)) (hacc : ASorted FactorioVersion.blt acc)
    (v : FactorioVersion) :
    alookup v (vd.foldl (fun acc2 vp =>
        aalter FactorioVersion.blt vp.1 (fun o => o.getD 0 + 1) acc2) acc) =
      if (alookup v vd).isSome then some ((alookup v acc).getD 0 + 1)
      else alookup v acc := by
  induction vd generalizing acc with
  | nil => simp [alookup]
  | cons vp rest ih =>
    rw [ASorted, List.pairwise_cons] at hvd
    obtain ⟨hhead, hrest⟩ := hvd
    rw [List.foldl_cons]
    have hacc' := fv_aalter_sorted (k := vp.1)
      (f := fun o => o.getD 0 + 1) (l := acc) hacc
    rw [ih hrest _ hacc']
    by_cases hv : vp.1 = v
    · subst hv
      have hnone : alookup vp.1 rest = none := by
        apply alookup_eq_none
        intro q hq he
        have h2 := hhead q hq
        rw [he, fv_blt_irrefl] at h2
        exact Bool.false_ne_true h2
      rw [hnone]
      simp only [Option.isSome_none, Bool.false_eq_true, if_false]
      rw [fv_alookup_aalter_self hacc]
      simp [alookup]
    · have hne : v ≠ vp.1 := fun h => hv h.symm
      rw [alookup_aalter_ne hne]
      simp only [alookup, if_neg hv]

theorem agg_outer_fold_sorted (maps : SampleTable)
    (acc : List (FactorioVersion × Nat)) (hacc : ASorted FactorioVersion.blt acc) :
    ASorted FactorioVersion.blt (maps.foldl (fun acc mp =>
      mp.2.foldl (fun acc2 vp =>
        aalter FactorioVersion.blt vp.1 (fun o => o.getD 0 + 1) acc2) acc) acc) := by
  induction maps generalizing acc with
  | nil => exact hacc
  | cons mp rest ih => exact ih _ (inner_count_fold_sorted mp.2 acc hacc)

theorem mapsCount_cons (mp : MapInfo × List (FactorioVersion × AvgData))
    (rest : SampleTable) (v : FactorioVersion) :
    mapsCount (mp :: rest) v =
      (if (alookup v mp.2).isSome then 1 else 0) + mapsCount rest v := by
  simp only [mapsCount, List.filter_cons]
  cases h : (alookup v mp.2).isSome <;> simp [h]
  omega

theorem agg_outer_fold (maps : SampleTable)
    (hmaps : ∀ mp ∈ maps, ASorted FactorioVersion.blt mp.2)
    (acc : List (FactorioVersion × Nat)) (hacc : ASorted FactorioVersion.blt acc)
    (v : FactorioVersion) :
    alookup v (maps.foldl (fun acc mp =>
      mp.2.foldl (fun acc2 vp =>
        aalter FactorioVersion.blt vp.1 (fun o => o.getD 0 + 1) acc2) acc) acc) =
      if 0 < mapsCount maps v then some ((alookup v acc).getD 0 + mapsCount maps v)
      else alookup v acc := by
  induction maps generalizing acc with
  | nil => simp [mapsCount]
  | cons mp rest ih =>
    rw [List.foldl_cons]
    have hacc' := inner_count_fold_sorted mp.2 acc hacc
    rw [ih (fun q hq => hmaps q (List.mem_cons_of_mem mp hq)) _ hacc']
    rw [inner_count_fold mp.2 (hmaps mp (List.mem_cons_self mp rest)) acc hacc v]
    rw [mapsCount_cons]
    by_cases hmp : (alookup v mp.2).isSome = true
    · rw [if_pos hmp, if_pos hmp]
      by_cases hrest : 0 < mapsCount rest v
      · rw [if_pos hrest, if_pos (by omega)]
        simp only [Option.getD_some, Option.some.injEq]
        omega
      · rw [if_neg hrest, if_pos (by omega)]
        have hr0 : mapsCount rest v = 0 := by omega
        rw [hr0]
    · rw [if_neg hmp, if_neg hmp]
      simp only [Nat.zero_add]

theorem aggregation_versions_sorted (maps : SampleTable) :
    ASorted FactorioVersion.blt (aggregation_versions maps) :=
  agg_outer_fold_sorted maps [] List.Pairwise.nil

theorem alookup_aggregation_versions (maps : SampleTable)
    (hmaps : ∀ mp ∈ maps, ASorted FactorioVersion.blt mp.2) (v : FactorioVersion) :
    alookup v (aggregation_versions maps) =
      if 0 < mapsCount maps v then some (mapsCount maps v) else none := by
  have h := agg_outer_fold maps hmaps [] List.Pairwise.nil v
  rw [aggregation_versions]
  rw [h]
  simp [alookup]

/-- Recursive form of the checkpoint scan (src/main.rs:166-171) over an
already built count list, carrying the running `prev_seen_ct`. -/
def selCk (prev : Nat) : List (FactorioVersion × Nat) → List FactorioVersion
  | [] => []
  | p :: rest => if prev < p.2 then p.1 :: selCk p.2 rest else selCk prev rest

theorem ck_fold_eq (av : List (FactorioVersion × Nat)) (prev : Nat)
    (acc : List FactorioVersion) :
    (av.foldl (fun acc p => if acc.1 < p.2 then (p.2, acc.2 ++ [p.1]) else acc)
      (prev, acc)).2 = acc ++ selCk prev av := by
  induction av generalizing prev acc with
  | nil => simp [selCk]
  | cons p rest ih =>
    show (List.foldl _ (if prev < p.2 then (p.2, acc ++ [p.1]) else (prev, acc)) rest).2
      = acc ++ selCk prev (p :: rest)
    rw [selCk]
    by_cases h : prev < p.2
    · rw [if_pos h, if_pos h, ih]
      simp
    · rw [if_neg h, if_neg h, ih]

theorem checkpoints_eq_selCk (maps : SampleTable) :
    checkpoints maps = selCk 0 (aggregation_versions maps) := by
  rw [checkpoints, ck_fold_eq]
  simp

theorem selCk_subset (p : Nat) (av : List (FactorioVersion × Nat))
    {v : FactorioVersion} (h : v ∈ selCk p av) : ∃ ct, (v, ct) ∈ av := by
  induction av generalizing p with
  | nil => simp [selCk] at h
  | cons q rest ih =>
    rw [selCk] at h
    by_cases hp : p < q.2
    · rw [if_pos hp] at h
      rcases List.mem_cons.mp h with h | h
      · refine ⟨q.2, ?_⟩
        rw [h]
        exact List.mem_cons_self q rest
      · obtain ⟨ct, hct⟩ := ih q.2 h
        exact ⟨ct, List.mem_cons_of_mem q hct⟩
    · rw [if_neg hp] at h
      obtain ⟨ct, hct⟩ := ih p h
      exact ⟨ct, List.mem_cons_of_mem q hct⟩

theorem selCk_pairwise (av : List (FactorioVersion × Nat))
    (hav : ASorted FactorioVersion.blt av) (p : Nat) :
    List.Pairwise (fun a b => a.blt b = true) (selCk p av) := by
  induction av generalizing p with
  | nil => simp [selCk]
  | cons q rest ih =>
    rw [ASorted, List.pairwise_cons] at hav
    obtain ⟨hhead, hrest⟩ := hav
    rw [selCk]
    by_cases hp : p < q.2
    · rw [if_pos hp]
      refine List.pairwise_cons.mpr ⟨?_, ih hrest q.2⟩
      intro u hu
      obtain ⟨ct, hct⟩ := selCk_subset q.2 rest hu
      exact hhead (u, ct) hct
    · rw [if_neg hp]
      exact ih hrest p

theorem mem_selCk_iff (av : List (FactorioVersion × Nat))
    (hav : ASorted FactorioVersion.blt av) (p : Nat) (v : FactorioVersion) :
    v ∈ selCk p av ↔ ∃ ct, alookup v av = some ct ∧ p < ct ∧
      ∀ q ∈ av, q.1.blt v = true → q.2 < ct := by
  induction av generalizing p with
  | nil => simp [selCk, alookup]
  | cons q rest ih =>
    rw [ASorted, List.pairwise_cons] at hav
    obtain ⟨hhead, hrest⟩ := hav
    rw [selCk]
    by_cases hqv : q.1 = v
    · have hnone : alookup v rest = none := by
        apply alookup_eq_none
        intro u hu he
        have h2 := hhead u hu
        rw [he, ← hqv, fv_blt_irrefl] at h2
        exact Bool.false_ne_true h2
      by_cases hp : p < q.2
      · rw [if_pos hp]
        constructor
        · intro _
          refine ⟨q.2, by simp [alookup, hqv], hp, ?_⟩
          intro u hu hub
          rcases List.mem_cons.mp hu with he | hu
          · rw [he, hqv, fv_blt_irrefl] at hub
            exact absurd hub Bool.false_ne_true
          · have h2 := hhead u hu
            rw [hqv] at h2
            have h3 := fv_blt_trans h2 hub
            rw [fv_blt_irrefl] at h3
            exact absurd h3 Bool.false_ne_true
        · intro _
          rw [← hqv]
          exact List.mem_cons_self q.1 _
      · rw [if_neg hp]
        constructor
        · intro hmem
          exfalso
          obtain ⟨ct, hct⟩ := selCk_subset p rest hmem
          have h2 := alookup_of_mem fv_blt_irrefl hrest hct
          rw [hnone] at h2
          cases h2
        · rintro ⟨ct, hlook, hpct, _⟩
          exfalso
          simp only [alookup, if_pos hqv, Option.some.injEq] at hlook
          omega
    · have hlook_cons : alookup v (q :: rest) = alookup v rest := by
        simp [alookup, hqv]
      by_cases hp : p < q.2
      · rw [if_pos hp, List.mem_cons]
        constructor
        · rintro (he | hmem)
          · exact absurd he.symm hqv
          · obtain ⟨ct, hlr, hq2ct, hallrest⟩ := (ih hrest q.2).mp hmem
            refine ⟨ct, by rw [hlook_cons]; exact hlr, by omega, ?_⟩
            intro u hu hub
            rcases List.mem_cons.mp hu with he | hu
            · rw [he]
              omega
            · exact hallrest u hu hub
        · rintro ⟨ct, hlook, hpct, hall⟩
          right
          apply (ih hrest q.2).mpr
          rw [hlook_cons] at hlook
          refine ⟨ct, hlook, ?_, fun u hu hub => hall u (List.mem_cons_of_mem q hu) hub⟩
          have hmem := mem_of_alookup hlook
          have hqb := hhead (v, ct) hmem
          exact hall q (List.mem_cons_self q rest) hqb
      · rw [if_neg hp, ih hrest p]
        constructor
        · rintro ⟨ct, hlr, hpct, hallrest⟩
          refine ⟨ct, by rw [hlook_cons]; exact hlr, hpct, ?_⟩
          intro u hu hub
          rcases List.mem_cons.mp hu with he | hu
          · rw [he]
            omega
          · exact hallrest u hu hub
        · rintro ⟨ct, hlook, hpct, hall⟩
          rw [hlook_cons] at hlook
          exact ⟨ct, hlook, hpct, fun u hu hub => hall u (List.mem_cons_of_mem q hu) hub⟩

theorem checkpoints_pairwise (maps : SampleTable) :
    List.Pairwise (fun a b => a.blt b = true) (checkpoints maps) := by
  rw [checkpoints_eq_selCk]
  exact selCk_pairwise _ (aggregation_versions_sorted maps) 0

theorem mem_checkpoints_iff (maps : SampleTable)
    (hmaps : ∀ mp ∈ maps, ASorted FactorioVersion.blt mp.2) (v : FactorioVersion) :
    v ∈ checkpoints maps ↔
      0 < mapsCount maps v ∧
      ∀ u, 0 < mapsCount maps u → u.blt v = true →
        mapsCount maps u < mapsCount maps v := by
  rw [checkpoints_eq_selCk, mem_selCk_iff _ (aggregation_versions_sorted maps) 0 v]
  constructor
  · rintro ⟨ct, hlook, hpos, hall⟩
    rw [alookup_aggregation_versions maps hmaps v] at hlook
    by_cases h0 : 0 < mapsCount maps v
    · rw [if_pos h0] at hlook
      have hct : mapsCount maps v = ct := Option.some.inj hlook
      refine ⟨h0, ?_⟩
      intro u hu hub
      have hlu : alookup u (aggregation_versions maps) = some (mapsCount maps u) := by
        rw [alookup_aggregation_versions maps hmaps u, if_pos hu]
      have h2 := hall (u, mapsCount maps u) (mem_of_alookup hlu) hub
      omega
    · rw [if_neg h0] at hlook
      cases hlook
  · rintro ⟨h0, hall⟩
    refine ⟨mapsCount maps v, ?_, h0, ?_⟩
    · rw [alookup_aggregation_versions maps hmaps v, if_pos h0]
    · intro q hq hub
      have hlq := alookup_of_mem fv_blt_irrefl
        (aggregation_versions_sorted maps) hq
      rw [alookup_aggregation_versions maps hmaps q.1] at hlq
      by_cases h0q : 0 < mapsCount maps q.1
      · rw [if_pos h0q] at hlq
        have he : q.2 = mapsCount maps q.1 := (Option.some.inj hlq).symm
        rw [he]
        exact hall q.1 h0q hub
      · rw [if_neg h0q] at hlq
        cases hlq

theorem checkpoints_counts_pairwise (maps : SampleTable)
    (hmaps : ∀ mp ∈ maps, ASorted FactorioVersion.blt mp.2) :
    List.Pairwise (fun a b => mapsCount maps a < mapsCount maps b)
      (checkpoints maps) := by
  refine List.Pairwise.imp_of_mem ?_ (checkpoints_pairwise maps)
  intro a b ha hb hab
  obtain ⟨hb0, hball⟩ := (mem_checkpoints_iff maps hmaps b).mp hb
  obtain ⟨ha0, _⟩ := (mem_checkpoints_iff maps hmaps a).mp ha
  exact hball a ha0 hab

theorem AvgData.add_zero (a : AvgData) : a + default = a := by
  cases a
  show AvgData.add _ ⟨0, 0, 0, 0, 0, 0, 0, 0, 0⟩ = _
  simp [AvgData.add]

theorem specCohort_cons (mp : MapInfo × List (FactorioVersion × AvgData))
    (rest : SampleTable) (c : FactorioVersion) :
    specCohort (mp :: rest) c =
      (if (alookup c mp.2).isSome then [mp.1] else []) ++ specCohort rest c := by
  simp only [specCohort, List.filter_cons]
  cases h : (alookup c mp.2).isSome <;> simp [h]

theorem specContribs_cons (mp : MapInfo × List (FactorioVersion × AvgData))
    (rest : SampleTable) (c v : FactorioVersion) :
    specContribs (mp :: rest) c v =
      (if (alookup c mp.2).isSome then (alookup v mp.2).toList else []) ++
        specContribs rest c v := by
  simp only [specContribs, List.filter_cons]
  cases h : (alookup c mp.2).isSome
  · simp [h]
  · simp only [if_pos rfl, List.filterMap_cons]
    cases h2 : alookup v mp.2 <;> simp [h2]

theorem pc_inner_first (c : FactorioVersion) (vd : List (FactorioVersion × AvgData))
    (a : List MapInfo × List (FactorioVersion × AvgData) × List (FactorioVersion × Nat)) :
    (vd.foldl (fun a vp =>
      if vp.1.blt c then a
      else (a.1,
        aalter FactorioVersion.blt vp.1 (fun o => o.getD default + vp.2) a.2.1,
        aalter FactorioVersion.blt vp.1 (fun o => o.getD 0 + 1) a.2.2)) a).1 = a.1 := by
  induction vd generalizing a with
  | nil => rfl
  | cons vp rest ih =>
    simp only [List.foldl_cons]
    by_cases hb : vp.1.blt c = true
    · rw [if_pos hb]
      exact ih a
    · rw [if_neg hb]
      exact ih _

theorem pc_inner_sorted (c : FactorioVersion) (vd : List (FactorioVersion × AvgData))
    (a : List MapInfo × List (FactorioVersion × AvgData) × List (FactorioVersion × Nat))
    (hb : ASorted FactorioVersion.blt a.2.1) (hct : ASorted FactorioVersion.blt a.2.2) :
    ASorted FactorioVersion.blt ((vd.foldl (fun a vp =>
      if vp.1.blt c then a
      else (a.1,
        aalter FactorioVersion.blt vp.1 (fun o => o.getD default + vp.2) a.2.1,
        aalter FactorioVersion.blt vp.1 (fun o => o.getD 0 + 1) a.2.2)) a).2.1) ∧
    ASorted FactorioVersion.blt ((vd.foldl (fun a vp =>
      if vp.1.blt c then a
      else (a.1,
        aalter FactorioVersion.blt vp.1 (fun o => o.getD default + vp.2) a.2.1,
        aalter FactorioVersion.blt vp.1 (fun o => o.getD 0 + 1) a.2.2)) a).2.2) := by
  induction vd generalizing a with
  | nil => exact ⟨hb, hct⟩
  | cons vp rest ih =>
    simp only [List.foldl_cons]
    by_cases hblt : vp.1.blt c = true
    · rw [if_pos hblt]
      exact ih a hb hct
    · rw [if_neg hblt]
      exact ih _ (fv_aalter_sorted hb) (fv_aalter_sorted hct)

theorem pc_inner_lookup (c : FactorioVersion) (vd : List (FactorioVersion × AvgData))
    (hvd : ASorted FactorioVersion.blt vd)
    (a : List MapInfo × List (FactorioVersion × AvgData) × List (FactorioVersion × Nat))
    (hb : ASorted FactorioVersion.blt a.2.1) (hct : ASorted FactorioVersion.blt a.2.2)
    (v : FactorioVersion) :
    (alookup v ((vd.foldl (fun a vp =>
      if vp.1.blt c then a
      else (a.1,
        aalter FactorioVersion.blt vp.1 (fun o => o.getD default + vp.2) a.2.1,
        aalter FactorioVersion.blt vp.1 (fun o => o.getD 0 + 1) a.2.2)) a).2.1) =
      if v.blt c = true then alookup v a.2.1
      else match alookup v vd with
        | some av => some ((alookup v a.2.1).getD default + av)
        | none => alookup v a.2.1) ∧
    (alookup v ((vd.foldl (fun a vp =>
      if vp.1.blt c then a
      else (a.1,
        aalter FactorioVersion.blt vp.1 (fun o => o.getD default + vp.2) a.2.1,
        aalter FactorioVersion.blt vp.1 (fun o => o.getD 0 + 1) a.2.2)) a).2.2) =
      if v.blt c = true then alookup v a.2.2
      else match alookup v vd with
        | some _ => some ((alookup v a.2.2).getD 0 + 1)
        | none => alookup v a.2.2) := by
  induction vd generalizing a with
  | nil =>
    simp only [List.foldl_nil, alookup]
    constructor <;> by_cases hvc : v.blt c = true <;> simp [hvc]
  | cons vp rest ih =>
    rw [ASorted, List.pairwise_cons] at hvd
    obtain ⟨hhead, hrest⟩ := hvd
    simp only [List.foldl_cons]
    by_cases hv : vp.1 = v
    · subst hv
      have hnone : alookup vp.1 rest = none := by
        apply alookup_eq_none
        intro q hq he
        have h2 := hhead q hq
        rw [he, fv_blt_irrefl] at h2
        exact Bool.false_ne_true h2
      have hcons : alookup vp.1 (vp :: rest) = some vp.2 := by
        simp [alookup]
      by_cases hblt : vp.1.blt c = true
      · rw [if_pos hblt]
        obtain ⟨ihb, ihc⟩ := ih hrest a hb hct
        rw [ihb, ihc, hnone, hcons]
        simp [hblt]
      · rw [if_neg hblt]
        obtain ⟨ihb, ihc⟩ := ih hrest
          (a.1, aalter FactorioVersion.blt vp.1 (fun o => o.getD default + vp.2) a.2.1,
            aalter FactorioVersion.blt vp.1 (fun o => o.getD 0 + 1) a.2.2)
          (fv_aalter_sorted hb) (fv_aalter_sorted hct)
        simp only [] at ihb ihc
        rw [ihb, ihc, hnone, hcons]
        simp only [hblt, Bool.false_eq_true, if_false]
        exact ⟨fv_alookup_aalter_self hb, fv_alookup_aalter_self hct⟩
    · have hne : v ≠ vp.1 := fun h => hv h.symm
      have hcons : alookup v (vp :: rest) = alookup v rest := by
        simp [alookup, hv]
      rw [hcons]
      by_cases hblt : vp.1.blt c = true
      · rw [if_pos hblt]
        exact ih hrest a hb hct
      · rw [if_neg hblt]
        obtain ⟨ihb, ihc⟩ := ih hrest
          (a.1, aalter FactorioVersion.blt vp.1 (fun o => o.getD default + vp.2) a.2.1,
            aalter FactorioVersion.blt vp.1 (fun o => o.getD 0 + 1) a.2.2)
          (fv_aalter_sorted hb) (fv_aalter_sorted hct)
        simp only [] at ihb ihc
        rw [ihb, ihc, alookup_aalter_ne hne, alookup_aalter_ne hne]
        exact ⟨rfl, rfl⟩

theorem pc_outer (c : FactorioVersion) (maps : SampleTable)
    (hm : ∀ mp ∈ maps, ASorted FactorioVersion.blt mp.2)
    (a : List MapInfo × List (FactorioVersion × AvgData) × List (FactorioVersion × Nat))
    (hb : ASorted FactorioVersion.blt a.2.1) (hct : ASorted FactorioVersion.blt a.2.2) :
    ((maps.foldl (fun acc mp =>
      if (alookup c mp.2).isNone then acc
      else
        mp.2.foldl (fun a vp =>
          if vp.1.blt c then a
          else (a.1,
            aalter FactorioVersion.blt vp.1 (fun o => o.getD default + vp.2) a.2.1,
            aalter FactorioVersion.blt vp.1 (fun o => o.getD 0 + 1) a.2.2))
          (acc.1 ++ [mp.1], acc.2.1, acc.2.2)) a).1 = a.1 ++ specCohort maps c) ∧
    ASorted FactorioVersion.blt ((maps.foldl (fun acc mp =>
      if (alookup c mp.2).isNone then acc
      else
        mp.2.foldl (fun a vp =>
          if vp.1.blt c then a
          else (a.1,
            aalter FactorioVersion.blt vp.1 (fun o => o.getD default + vp.2) a.2.1,
            aalter FactorioVersion.blt vp.1 (fun o => o.getD 0 + 1) a.2.2))
          (acc.1 ++ [mp.1], acc.2.1, acc.2.2)) a).2.1) ∧
    ASorted FactorioVersion.blt ((maps.foldl (fun acc mp =>
      if (alookup c mp.2).isNone then acc
      else
        mp.2.foldl (fun a vp =>
          if vp.1.blt c then a
          else (a.1,
            aalter FactorioVersion.blt vp.1 (fun o => o.getD default + vp.2) a.2.1,
            aalter FactorioVersion.blt vp.1 (fun o => o.getD 0 + 1) a.2.2))
          (acc.1 ++ [mp.1], acc.2.1, acc.2.2)) a).2.2) ∧
    ∀ v, (alookup v ((maps.foldl (fun acc mp =>
      if (alookup c mp.2).isNone then acc
      else
        mp.2.foldl (fun a vp =>
          if vp.1.blt c then a
          else (a.1,
            aalter FactorioVersion.blt vp.1 (fun o => o.getD default + vp.2) a.2.1,
            aalter FactorioVersion.blt vp.1 (fun o => o.getD 0 + 1) a.2.2))
          (acc.1 ++ [mp.1], acc.2.1, acc.2.2)) a).2.1) =
        if v.blt c = true then alookup v a.2.1
        else if (specContribs maps c v).isEmpty then alookup v a.2.1
        else some ((alookup v a.2.1).getD default + sumAvg (specContribs maps c v))) ∧
      (alookup v ((maps.foldl (fun acc mp =>
      if (alookup c mp.2).isNone then acc
      else
        mp.2.foldl (fun a vp =>
          if vp.1.blt c then a
          else (a.1,
            aalter FactorioVersion.blt vp.1 (fun o => o.getD default + vp.2) a.2.1,
            aalter FactorioVersion.blt vp.1 (fun o => o.getD 0 + 1) a.2.2))
          (acc.1 ++ [mp.1], acc.2.1, acc.2.2)) a).2.2) =
        if v.blt c = true then alookup v a.2.2
        else if (specContribs maps c v).isEmpty then alookup v a.2.2
        else some ((alookup v a.2.2).getD 0 + (specContribs maps c v).length)) := by
  induction maps generalizing a with
  | nil =>
    refine ⟨by simp [specCohort], hb, hct, ?_⟩
    intro v
    constructor <;> by_cases hvc : v.blt c = true <;> simp [hvc, specContribs]
  | cons mp rest ih =>
    have hmrest : ∀ q ∈ rest, ASorted FactorioVersion.blt q.2 :=
      fun q hq => hm q (List.mem_cons_of_mem mp hq)
    simp only [List.foldl_cons]
    by_cases hmp : (alookup c mp.2).isNone = true
    · rw [if_pos hmp]
      have hsome : (alookup c mp.2).isSome = false := by
        cases h : alookup c mp.2
        · rfl
        · rw [h] at hmp
          cases hmp
      have hcoh : specCohort (mp :: rest) c = specCohort rest c := by
        rw [specCohort_cons, hsome]
        simp
      have hcontribs : ∀ v, specContribs (mp :: rest) c v = specContribs rest c v := by
        intro v
        rw [specContribs_cons, hsome]
        simp
      obtain ⟨ih1, ih2, ih3, ih4⟩ := ih hmrest a hb hct
      refine ⟨by rw [ih1, hcoh], ih2, ih3, ?_⟩
      intro v
      obtain ⟨hv1, hv2⟩ := ih4 v
      rw [hv1, hv2, hcontribs v]
      exact ⟨rfl, rfl⟩
    · rw [if_neg hmp]
      have hsome : (alookup c mp.2).isSome = true := by
        cases h : alookup c mp.2
        · rw [h] at hmp
          exact absurd rfl hmp
        · rfl
      obtain ⟨hba, hca⟩ := pc_inner_sorted c mp.2 (a.1 ++ [mp.1], a.2.1, a.2.2) hb hct
      obtain ⟨ih1, ih2, ih3, ih4⟩ := ih hmrest
        (mp.2.foldl (fun a vp =>
          if vp.1.blt c then a
          else (a.1,
            aalter FactorioVersion.blt vp.1 (fun o => o.getD default + vp.2) a.2.1,
            aalter FactorioVersion.blt vp.1 (fun o => o.getD 0 + 1) a.2.2))
          (a.1 ++ [mp.1], a.2.1, a.2.2)) hba hca
      refine ⟨?_, ih2, ih3, ?_⟩
      · rw [ih1, pc_inner_first, specCohort_cons, hsome]
        simp
      · intro v
        obtain ⟨hv1, hv2⟩ := ih4 v
        obtain ⟨hi1, hi2⟩ := pc_inner_lookup c mp.2 (hm mp (List.mem_cons_self mp rest))
          (a.1 ++ [mp.1], a.2.1, a.2.2) hb hct v
        simp only [] at hi1 hi2
        rw [hv1, hv2, hi1, hi2, specContribs_cons, hsome, if_pos rfl]
        by_cases hvc : v.blt c = true
        · simp [hvc]
        · simp only [hvc, Bool.false_eq_true, if_false]
          cases hmv : alookup v mp.2
          · simp
          · rename_i av
            simp only [Option.toList_some, List.singleton_append, List.isEmpty_cons,
              Bool.false_eq_true, if_false]
            cases hL : specContribs rest c v with
            | nil =>
              simp only [List.isEmpty_nil, if_true, Option.getD_some]
              constructor
              · rw [sumAvg_cons, sumAvg_nil, AvgData.add_zero]
              · simp
            | cons x xs =>
              simp only [List.isEmpty_cons, Bool.false_eq_true, if_false,
                Option.getD_some, Option.some.injEq]
              constructor
              · rw [sumAvg_cons, AvgData.add_assoc, sumAvg_cons, sumAvg_cons]
              · simp only [List.length_cons, Option.some.injEq]
                omega

theorem alookup_map_pres {K V W : Type} [DecidableEq K]
    (f : K × V → W) (l : List (K × V)) (k : K) :
    alookup k (l.map (fun p => (p.1, f p))) =
      (alookup k l).map (fun v => f (k, v)) := by
  induction l with
  | nil => rfl
  | cons p rest ih =>
    simp only [List.map_cons, alookup]
    by_cases hk : p.1 = k
    · rw [if_pos hk, if_pos hk]
      obtain ⟨k1, v1⟩ := p
      subst hk
      rfl
    · rw [if_neg hk, if_neg hk]
      exact ih

theorem process_checkpoint_spec (maps : SampleTable) (c : FactorioVersion)
    (hm : ∀ mp ∈ maps, ASorted FactorioVersion.blt mp.2) :
    (process_checkpoint maps c).1 = specCohort maps c ∧
    ASorted FactorioVersion.blt (process_checkpoint maps c).2.1 ∧
    ASorted FactorioVersion.blt (process_checkpoint maps c).2.2 ∧
    ∀ v, (alookup v (process_checkpoint maps c).2.1 =
        if v.blt c = true then none
        else if (specContribs maps c v).isEmpty then none
        else some (sumAvg (specContribs maps c v))) ∧
      (alookup v (process_checkpoint maps c).2.2 =
        if v.blt c = true then none
        else if (specContribs maps c v).isEmpty then none
        else some ((specContribs maps c v).length)) := by
  obtain ⟨h1, h2, h3, h4⟩ := pc_outer c maps hm ([], [], [])
    List.Pairwise.nil List.Pairwise.nil
  unfold process_checkpoint
  refine ⟨by simpa using h1, h2, h3, ?_⟩
  intro v
  obtain ⟨hv1, hv2⟩ := h4 v
  simp only [] at hv1 hv2
  rw [show alookup v ([] : List (FactorioVersion × AvgData)) = none from rfl] at hv1
  rw [show alookup v ([] : List (FactorioVersion × Nat)) = none from rfl] at hv2
  simp only [Option.getD_none] at hv1 hv2
  rw [hv1, hv2]
  constructor
  · by_cases hvc : v.blt c = true
    · simp [hvc]
    · cases hL : (specContribs maps c v).isEmpty <;>
        simp [hvc, hL, AvgData.zero_add]
  · by_cases hvc : v.blt c = true
    · simp [hvc]
    · cases hL : (specContribs maps c v).isEmpty <;> simp [hvc, hL]

theorem checkpoint_avg_lookup (maps : SampleTable) (c : FactorioVersion)
    (hm : ∀ mp ∈ maps, ASorted FactorioVersion.blt mp.2) (v : FactorioVersion) :
    alookup v (checkpoint_avg maps c) = specAvgAt maps c v := by
  obtain ⟨_, _, _, h4⟩ := process_checkpoint_spec maps c hm
  obtain ⟨hv1, hv2⟩ := h4 v
  unfold checkpoint_avg
  rw [alookup_map_pres
    (fun p => p.2.divCt ((alookup p.1 (process_checkpoint maps c).2.2).getD 0))
    (process_checkpoint maps c).2.1 v]
  rw [hv1]
  unfold specAvgAt
  by_cases hvc : v.blt c = true
  · simp [hvc]
  · simp only [hvc, Bool.false_eq_true, if_false]
    cases hL : (specContribs maps c v).isEmpty
    · simp only [Bool.false_eq_true, if_false, Option.map_some]
      rw [hv2]
      simp [hvc, hL]
    · simp

theorem specCohort_length (maps : SampleTable) (c : FactorioVersion) :
    (specCohort maps c).length = mapsCount maps c := by
  simp [specCohort, mapsCount]

theorem specContribs_self_length (maps : SampleTable) (c : FactorioVersion) :
    (specContribs maps c c).length = mapsCount maps c := by
  induction maps with
  | nil => rfl
  | cons mp rest ih =>
    rw [specContribs_cons, mapsCount_cons]
    cases h : alookup c mp.2 <;> simp [h, ih]
    omega

theorem cohort_nonempty_of_checkpoint (maps : SampleTable)
    (hm : ∀ mp ∈ maps, ASorted FactorioVersion.blt mp.2)
    {c : FactorioVersion} (hc : c ∈ checkpoints maps) :
    (process_checkpoint maps c).1 ≠ [] := by
  obtain ⟨h0, _⟩ := (mem_checkpoints_iff maps hm c).mp hc
  obtain ⟨h1, _, _, _⟩ := process_checkpoint_spec maps c hm
  rw [h1]
  intro he
  have := specCohort_length maps c
  rw [he] at this
  simp at this
  omega

theorem bucket_nonempty_of_checkpoint (maps : SampleTable)
    (hm : ∀ mp ∈ maps, ASorted FactorioVersion.blt mp.2)
    {c : FactorioVersion} (hc : c ∈ checkpoints maps) :
    checkpoint_avg maps c ≠ [] := by
  obtain ⟨h0, _⟩ := (mem_checkpoints_iff maps hm c).mp hc
  have hlook := checkpoint_avg_lookup maps c hm c
  have hle : (specContribs maps c c).isEmpty = false := by
    have hlen := specContribs_self_length maps c
    cases hcl : specContribs maps c c
    · rw [hcl] at hlen
      simp at hlen
      omega
    · rfl
  rw [specAvgAt, if_neg (by rw [fv_blt_irrefl]; exact Bool.false_ne_true),
    hle] at hlook
  simp only [Bool.false_eq_true, if_false] at hlook
  intro he
  rw [he] at hlook
  cases hlook

theorem info_buckets_eq (maps : SampleTable)
    (hm : ∀ mp ∈ maps, ASorted FactorioVersion.blt mp.2) :
    info_buckets maps =
      (checkpoints maps).map (fun c => (c, (process_checkpoint maps c).1)) := by
  unfold info_buckets
  show List.foldl (fun acc c =>
    if ((process_checkpoint maps c).1).isEmpty then acc
    else acc ++ [(c, (process_checkpoint maps c).1)]) [] (checkpoints maps) = _
  rw [foldl_append_of_guard_false (fun c => (c, (process_checkpoint maps c).1))
    (fun c => ((process_checkpoint maps c).1).isEmpty) (checkpoints maps) []]
  · simp
  · intro c hcm
    have := cohort_nonempty_of_checkpoint maps hm hcm
    cases hcl : (process_checkpoint maps c).1
    · exact absurd hcl this
    · rfl

theorem checkpoint_buckets_eq (maps : SampleTable)
    (hm : ∀ mp ∈ maps, ASorted FactorioVersion.blt mp.2) :
    checkpoint_buckets maps =
      (checkpoints maps).map (fun c => (c, checkpoint_avg maps c)) := by
  unfold checkpoint_buckets
  show List.foldl (fun acc c =>
    if (checkpoint_avg maps c).isEmpty then acc
    else acc ++ [(c, checkpoint_avg maps c)]) [] (checkpoints maps) = _
  rw [foldl_append_of_guard_false (fun c => (c, checkpoint_avg maps c))
    (fun c => (checkpoint_avg maps c).isEmpty) (checkpoints maps) []]
  · simp
  · intro c hcm
    have := bucket_nonempty_of_checkpoint maps hm hcm
    cases hcl : checkpoint_avg maps c
    · exact absurd hcl this
    · rfl

theorem aggregate_maps_eq (maps : SampleTable)
    (hm : ∀ mp ∈ maps, ASorted FactorioVersion.blt mp.2) :
    aggregate_maps maps = (checkpoints maps).map
      (fun c => (c, ((process_checkpoint maps c).1, checkpoint_avg maps c))) := by
  unfold aggregate_maps
  rw [info_buckets_eq maps hm, checkpoint_buckets_eq maps hm, zipWith_map_same]

theorem alookup_aggregate_maps (maps : SampleTable)
    (hm : ∀ mp ∈ maps, ASorted FactorioVersion.blt mp.2)
    {c : FactorioVersion} (hc : c ∈ checkpoints maps) :
    alookup c (aggregate_maps maps) =
      some ((process_checkpoint maps c).1, checkpoint_avg maps c) := by
  rw [aggregate_maps_eq maps hm]
  apply alookup_of_mem fv_blt_irrefl
  · rw [ASorted, List.pairwise_map]
    exact checkpoints_pairwise maps
  · exact List.mem_map_of_mem _ hc

theorem asorted_lookup_ext {K V : Type} [DecidableEq K] {lt : K → K → Bool}
    (hirr : ∀ a : K, lt a a = false)
    (htr : ∀ {a b c : K}, lt a b = true → lt b c = true → lt a c = true)
    {l1 l2 : List (K × V)} (h1 : ASorted lt l1) (h2 : ASorted lt l2)
    (h : ∀ k, alookup k l1 = alookup k l2) : l1 = l2 := by
  induction l1 generalizing l2 with
  | nil =>
    cases l2 with
    | nil => rfl
    | cons q r2 =>
      exfalso
      have hq := h q.1
      have hqs : alookup q.1 (q :: r2) = some q.2 := by simp [alookup]
      rw [show alookup q.1 ([] : List (K × V)) = none from rfl, hqs] at hq
      cases hq
  | cons p r1 ih =>
    cases l2 with
    | nil =>
      exfalso
      have hp := h p.1
      have hps : alookup p.1 (p :: r1) = some p.2 := by simp [alookup]
      rw [hps, show alookup p.1 ([] : List (K × V)) = none from rfl] at hp
      cases hp
    | cons q r2 =>
      rw [ASorted, List.pairwise_cons] at h1 h2
      obtain ⟨hh1, hr1⟩ := h1
      obtain ⟨hh2, hr2⟩ := h2
      have hsome1 : alookup p.1 (p :: r1) = some p.2 := by simp [alookup]
      have hsome2 : alookup q.1 (q :: r2) = some q.2 := by simp [alookup]
      have hp2 : alookup p.1 (q :: r2) = some p.2 := by
        rw [← h p.1]
        exact hsome1
      have hq1 : alookup q.1 (p :: r1) = some q.2 := by
        rw [h q.1]
        exact hsome2
      have hkeys : p.1 = q.1 := by
        by_contra hne
        have hpr2 : (p.1, p.2) ∈ r2 := by
          rcases List.mem_cons.mp (mem_of_alookup hp2) with he | hm
          · exact absurd (congrArg Prod.fst he) hne
          · exact hm
        have hqr1 : (q.1, q.2) ∈ r1 := by
          rcases List.mem_cons.mp (mem_of_alookup hq1) with he | hm
          · exact absurd (congrArg Prod.fst he).symm hne
          · exact hm
        have hb1 := hh1 _ hqr1
        have hb2 := hh2 _ hpr2
        have hc := htr hb1 hb2
        rw [hirr] at hc
        exact Bool.false_ne_true hc
      have hval : p.2 = q.2 := by
        have hx := hp2
        rw [hkeys, hsome2] at hx
        exact (Option.some.inj hx).symm
      have hpq : p = q := by
        obtain ⟨pk, pv⟩ := p
        obtain ⟨qk, qv⟩ := q
        simp only [Prod.mk.injEq]
        exact ⟨hkeys, hval⟩
      subst hpq
      have htails : ∀ k, alookup k r1 = alookup k r2 := by
        intro k
        by_cases hk : p.1 = k
        · subst hk
          have hn1 : alookup p.1 r1 = none := by
            apply alookup_eq_none
            intro u hu he
            have hx := hh1 u hu
            rw [he, hirr] at hx
            exact Bool.false_ne_true hx
          have hn2 : alookup p.1 r2 = none := by
            apply alookup_eq_none
            intro u hu he
            have hx := hh2 u hu
            rw [he, hirr] at hx
            exact Bool.false_ne_true hx
          rw [hn1, hn2]
        · have hgen := h k
          simp only [alookup, if_neg hk] at hgen
          exact hgen
      rw [ih hr1 hr2 htails]

theorem query_db_fold_error (rows : List Row) (acc : SampleTable) :
    (∃ r ∈ rows, END_GRAPH_FV.blt r.1 = true ∨ r.1.blt START_GRAPH_FV = true) →
    ∃ e, (rows.foldlM (fun maps row =>
      if END_GRAPH_FV.blt row.1 then
        Except.error "OutOfRangeVersion: exceeds END_GRAPH_FV"
      else if row.1.blt START_GRAPH_FV then
        Except.error "OutOfRangeVersion: precedes START_GRAPH_FV"
      else
        Except.ok (aalter MapInfo.blt row.2.2
          (fun o => aalter FactorioVersion.blt row.1 (fun _ => row.2.1) (o.getD []))
          maps)) acc : Except String SampleTable) = Except.error e := by
  induction rows generalizing acc with
  | nil =>
    rintro ⟨r, hr, _⟩
    cases hr
  | cons r rest ih =>
    rintro ⟨r0, hr0, hbad⟩
    rw [List.foldlM_cons]
    by_cases hc1 : END_GRAPH_FV.blt r.1 = true
    · rw [if_pos hc1]
      exact ⟨_, rfl⟩
    · rw [if_neg hc1]
      by_cases hc2 : r.1.blt START_GRAPH_FV = true
      · rw [if_pos hc2]
        exact ⟨_, rfl⟩
      · rw [if_neg hc2]
        apply ih
        rcases List.mem_cons.mp hr0 with he | hm
        · subst he
          rcases hbad with hb | hb
          · exact absurd hb hc1
          · exact absurd hb hc2
        · exact ⟨r0, hm, hbad⟩

theorem foldl_append_bind {α β : Type} (g : α → List β) (l : List α)
    (acc : List β) :
    l.foldl (fun acc x => acc ++ g x) acc = acc ++ l.flatMap g := by
  induction l generalizing acc with
  | nil => simp
  | cons x rest ih =>
    rw [List.foldl_cons, ih, List.flatMap_cons, List.append_assoc]

theorem gen_svg_other (vd : List (FactorioVersion × AvgData))
    (v : FactorioVersion) (d : AvgData) (hmem : (v, d) ∈ vd) :
    (v, d.wholeUpdate - (d.circuitNetworkUpdate + d.transportLinesUpdate +
      d.fluidsUpdate + d.entityUpdate + d.electricNetworkUpdate +
      d.logisticManagerUpdate + d.trains + d.trainPathFinder), "other")
      ∈ gen_svg_data_points vd := by
  rw [gen_svg_data_points, foldl_append_bind]
  rw [List.nil_append]
  apply List.mem_flatMap.mpr
  refine ⟨(v, d), hmem, ?_⟩
  have he : d.wholeUpdate - (d.circuitNetworkUpdate + d.transportLinesUpdate +
      d.fluidsUpdate + d.entityUpdate + d.electricNetworkUpdate +
      d.logisticManagerUpdate + d.trains + d.trainPathFinder) =
      d.wholeUpdate - d.circuitNetworkUpdate - d.transportLinesUpdate -
      d.fluidsUpdate - d.entityUpdate - d.electricNetworkUpdate -
      d.logisticManagerUpdate - d.trains - d.trainPathFinder := by
    ring
  rw [he]
  simp

/-- The identities and versions of the spec's concrete examples. -/
def exM1 : MapInfo := ⟨"M1", "aa"⟩

def exM2 : MapInfo := ⟨"M2", "bb"⟩

def fv66 : FactorioVersion := ⟨0, 17, 66⟩

def fv79 : FactorioVersion := ⟨0, 17, 79⟩

def fv180 : FactorioVersion := ⟨0, 18, 0⟩

/-- A metric record with a given total and zero sub-phases. -/
def exD (q : ℚ) : AvgData := ⟨q, 0, 0, 0, 0, 0, 0, 0, 0⟩

/-- The spec's example table: M1 sampled at {0.17.66, 0.17.79, 0.18.0},
M2 at {0.17.79, 0.18.0}. -/
def exTable : SampleTable :=
  [(exM1, [(fv66, exD 1), (fv79, exD 2), (fv180, exD 3)]),
   (exM2, [(fv79, exD 4), (fv180, exD 5)])]

/-- The spec's "other" example: total 10, the eight sub-phases sum to 11. -/
def exD6 : AvgData := ⟨10, 2, 2, 2, 1, 1, 1, 1, 1⟩

theorem exM1_blt_exM2 : MapInfo.blt exM1 exM2 = true := by
  have h : ("M1" : String) < "M2" := by
    rw [String.lt_iff_toList_lt]
    decide
  simp [MapInfo.blt, exM1, exM2, h]

theorem sortedTable_exTable : SortedTable exTable := by
  refine ⟨?_, by decide⟩
  rw [ASorted]
  refine List.pairwise_cons.mpr ⟨?_, List.pairwise_singleton _ _⟩
  intro q hq
  rw [List.mem_singleton] at hq
  rw [hq]
  exact exM1_blt_exM2

/-- Boolean adjacency check used to evaluate `List.Chain'` on concrete
lists: the `Chain'` Decidable instance does not kernel-reduce. -/
def chainB {α : Type} (f : α → α → Bool) : List α → Bool
  | [] => true
  | [_] => true
  | a :: b :: rest => f a b && chainB f (b :: rest)

theorem chainB_iff {α : Type} (f : α → α → Bool) (l : List α) :
    chainB f l = true ↔ List.Chain' (fun a b => f a b = true) l := by
  induction l with
  | nil => simp [chainB]
  | cons a rest ih =>
    cases rest with
    | nil => simp [chainB]
    | cons b rest2 =>
      rw [show chainB f (a :: b :: rest2) = (f a b && chainB f (b :: rest2))
        from rfl, Bool.and_eq_true, List.chain'_cons]
      exact and_congr Iff.rfl ih

theorem map_fst_map_pair {α β : Type} (g : α → β) (l : List α) :
    (l.map (fun c => (c, g c))).map Prod.fst = l := by
  induction l with
  | nil => rfl
  | cons x rest ih => simp [ih]

/-- Claim C1: checkpoint discovery records a version exactly when its map
count strictly exceeds the running maximum over all smaller versions present
in the table (equivalently: its count exceeds every smaller present
version's count), and on the spec's example table the checkpoint list is
exactly [0.17.66, 0.17.79], with 0.18.0 not a checkpoint. -/
theorem checkpoint_discovery_correct (maps : SampleTable) (h : SortedTable maps) :
    (∀ v, v ∈ checkpoints maps ↔
      0 < mapsCount maps v ∧
      ∀ u, 0 < mapsCount maps u → u.blt v = true →
        mapsCount maps u < mapsCount maps v) ∧
    checkpoints exTable = [fv66, fv79] ∧
    fv180 ∉ checkpoints exTable :=
  ⟨fun v => mem_checkpoints_iff maps h.2 v, by decide, by decide⟩

/-- Witness for C1 at the spec's example table. -/
theorem checkpoint_discovery_correct_witness :
    SortedTable exTable ∧
    ((∀ v, v ∈ checkpoints exTable ↔
      0 < mapsCount exTable v ∧
      ∀ u, 0 < mapsCount exTable u → u.blt v = true →
        mapsCount exTable u < mapsCount exTable v) ∧
    checkpoints exTable = [fv66, fv79] ∧
    fv180 ∉ checkpoints exTable) :=
  ⟨sortedTable_exTable, checkpoint_discovery_correct exTable sortedTable_exTable⟩

/-- Claim C2: for every discovered checkpoint, the result of
`aggregate_maps` at that key pairs the cohort (maps whose series contains
the checkpoint) with a series that is, pointwise, the sum of the cohort
members contributing at each version `v ≥ c`, divided by the number of such
contributors; versions below the checkpoint and maps outside the cohort
contribute nothing. -/
theorem chain_aggregation_refines_spec (maps : SampleTable) (c : FactorioVersion)
    (h : SortedTable maps) (hc : c ∈ checkpoints maps) :
    ∃ pr, alookup c (aggregate_maps maps) = some pr ∧
      pr.1 = specCohort maps c ∧
      ∀ v, alookup v pr.2 = specAvgAt maps c v := by
  refine ⟨((process_checkpoint maps c).1, checkpoint_avg maps c),
    alookup_aggregate_maps maps h.2 hc,
    (process_checkpoint_spec maps c h.2).1, ?_⟩
  intro v
  exact checkpoint_avg_lookup maps c h.2 v

/-- Witness for C2 at checkpoint 0.17.79 of the example table. -/
theorem chain_aggregation_refines_spec_witness :
    SortedTable exTable ∧ fv79 ∈ checkpoints exTable ∧
    (∃ pr, alookup fv79 (aggregate_maps exTable) = some pr ∧
      pr.1 = specCohort exTable fv79 ∧
      ∀ v, alookup v pr.2 = specAvgAt exTable fv79 v) :=
  ⟨sortedTable_exTable, by decide,
    chain_aggregation_refines_spec exTable fv79 sortedTable_exTable (by decide)⟩

/-- Claim C3: every discovered checkpoint has at least one map holding a
sample at it, the cohort and raw bucket are non-empty, and every version in
the bucket has a contributor count of at least 1 in
`maps_per_checkpoint_inner_fv`, so the unwrap lookups succeed and no
division by zero occurs. -/
theorem averaging_safety (maps : SampleTable) (c : FactorioVersion)
    (h : SortedTable maps) (hc : c ∈ checkpoints maps) :
    (∃ mp ∈ maps, (alookup c mp.2).isSome = true) ∧
    (process_checkpoint maps c).1 ≠ [] ∧
    (process_checkpoint maps c).2.1 ≠ [] ∧
    ∀ p ∈ (process_checkpoint maps c).2.1,
      ∃ n, alookup p.1 (process_checkpoint maps c).2.2 = some n ∧ 1 ≤ n := by
  obtain ⟨h0, _⟩ := (mem_checkpoints_iff maps h.2 c).mp hc
  obtain ⟨hcoh, hbs, hcs, h4⟩ := process_checkpoint_spec maps c h.2
  refine ⟨?_, cohort_nonempty_of_checkpoint maps h.2 hc, ?_, ?_⟩
  · rw [mapsCount] at h0
    have hne : (maps.filter (fun mp => (alookup c mp.2).isSome)) ≠ [] := by
      intro he
      rw [he] at h0
      simp at h0
    obtain ⟨mp, hmp⟩ := List.exists_mem_of_ne_nil _ hne
    obtain ⟨hmem, hsome⟩ := List.mem_filter.mp hmp
    exact ⟨mp, hmem, hsome⟩
  · obtain ⟨hb, _⟩ := h4 c
    have hle : (specContribs maps c c).isEmpty = false := by
      have hlen := specContribs_self_length maps c
      cases hcl : specContribs maps c c
      · rw [hcl] at hlen
        simp at hlen
        omega
      · rfl
    rw [if_neg (by rw [fv_blt_irrefl]; exact Bool.false_ne_true),
      hle] at hb
    simp only [Bool.false_eq_true, if_false] at hb
    intro he
    rw [he] at hb
    cases hb
  · intro p hp
    have hlook := alookup_of_mem fv_blt_irrefl hbs hp
    obtain ⟨hb, hcnt⟩ := h4 p.1
    rw [hlook] at hb
    by_cases hvc : p.1.blt c = true
    · rw [if_pos hvc] at hb
      cases hb
    · cases hL : (specContribs maps c p.1).isEmpty
      · simp only [hvc, hL, Bool.false_eq_true, if_false] at hb hcnt
        refine ⟨(specContribs maps c p.1).length, hcnt, ?_⟩
        cases hcl : specContribs maps c p.1 with
        | nil =>
          rw [hcl] at hL
          cases hL
        | cons x xs => simp [hcl]
      · rw [if_neg hvc, hL] at hb
        simp at hb

/-- Witness for C3 at checkpoint 0.17.66 of the example table. -/
theorem averaging_safety_witness :
    SortedTable exTable ∧ fv66 ∈ checkpoints exTable ∧
    ((∃ mp ∈ exTable, (alookup fv66 mp.2).isSome = true) ∧
    (process_checkpoint exTable fv66).1 ≠ [] ∧
    (process_checkpoint exTable fv66).2.1 ≠ [] ∧
    ∀ p ∈ (process_checkpoint exTable fv66).2.1,
      ∃ n, alookup p.1 (process_checkpoint exTable fv66).2.2 = some n ∧ 1 ≤ n) :=
  ⟨sortedTable_exTable, by decide,
    averaging_safety exTable fv66 sortedTable_exTable (by decide)⟩

/-- Claim C4: any row whose version lies outside the configured
[0.17.66, 0.18.45] bounds makes `query_db` fail (the source asserts abort
before a table is produced); in particular a row with version 0.16.50
yields the "precedes START_GRAPH_FV" fault, never a table with the sample
dropped. -/
theorem out_of_range_fault (rows : List Row)
    (h : ∃ r ∈ rows, END_GRAPH_FV.blt r.1 = true ∨ r.1.blt START_GRAPH_FV = true) :
    (∃ e, query_db rows = Except.error e) ∧
    query_db [(FactorioVersion.new 0 16 50, default, MapInfo.mk "m" "h")] =
      Except.error "OutOfRangeVersion: precedes START_GRAPH_FV" := by
  constructor
  · unfold query_db
    exact query_db_fold_error rows [] h
  · rfl

/-- Witness for C4 at a single row with version 0.16.50. -/
theorem out_of_range_fault_witness :
    (∃ r ∈ [(FactorioVersion.new 0 16 50, (default : AvgData), MapInfo.mk "m" "h")],
      END_GRAPH_FV.blt r.1 = true ∨ r.1.blt START_GRAPH_FV = true) ∧
    ((∃ e, query_db [(FactorioVersion.new 0 16 50, default, MapInfo.mk "m" "h")] =
        Except.error e) ∧
      query_db [(FactorioVersion.new 0 16 50, default, MapInfo.mk "m" "h")] =
        Except.error "OutOfRangeVersion: precedes START_GRAPH_FV") :=
  ⟨⟨(FactorioVersion.new 0 16 50, default, MapInfo.mk "m" "h"),
      List.mem_cons_self _ _, Or.inr (by decide)⟩,
    out_of_range_fault _
      ⟨(FactorioVersion.new 0 16 50, default, MapInfo.mk "m" "h"),
        List.mem_cons_self _ _, Or.inr (by decide)⟩⟩

/-- Claim C5: the checkpoint list is strictly increasing in version order,
the associated map counts are strictly increasing, and a version is never
recorded when some smaller present version already reaches its count. -/
theorem checkpoint_monotonicity (maps : SampleTable) (h : SortedTable maps) :
    List.Pairwise (fun a b => a.blt b = true) (checkpoints maps) ∧
    List.Pairwise (· < ·) ((checkpoints maps).map (mapsCount maps)) ∧
    ∀ v, (∃ u, 0 < mapsCount maps u ∧ u.blt v = true ∧
        mapsCount maps v ≤ mapsCount maps u) → v ∉ checkpoints maps := by
  refine ⟨checkpoints_pairwise maps, ?_, ?_⟩
  · rw [List.pairwise_map]
    exact checkpoints_counts_pairwise maps h.2
  · rintro v ⟨u, hu0, hub, hle⟩ hvmem
    obtain ⟨hv0, hall⟩ := (mem_checkpoints_iff maps h.2 v).mp hvmem
    have := hall u hu0 hub
    omega

/-- Witness for C5 at the spec's example table. -/
theorem checkpoint_monotonicity_witness :
    SortedTable exTable ∧
    (List.Pairwise (fun a b => a.blt b = true) (checkpoints exTable) ∧
    List.Pairwise (· < ·) ((checkpoints exTable).map (mapsCount exTable)) ∧
    ∀ v, (∃ u, 0 < mapsCount exTable u ∧ u.blt v = true ∧
        mapsCount exTable v ≤ mapsCount exTable u) → v ∉ checkpoints exTable) :=
  ⟨sortedTable_exTable, checkpoint_monotonicity exTable sortedTable_exTable⟩

/-- Claim C6: the "other" data point emitted per version equals the total
(`wholeUpdate`) minus the sum of the eight named sub-phase metrics, and it
is surfaced unclamped: with total 10 and sub-phases summing to 11, the
emitted value is -1. -/
theorem other_metric_unclamped :
    (∀ (vd : List (FactorioVersion × AvgData)) (v : FactorioVersion) (d : AvgData),
      (v, d) ∈ vd →
      (v, d.wholeUpdate - (d.circuitNetworkUpdate + d.transportLinesUpdate +
        d.fluidsUpdate + d.entityUpdate + d.electricNetworkUpdate +
        d.logisticManagerUpdate + d.trains + d.trainPathFinder), "other")
        ∈ gen_svg_data_points vd) ∧
    (gen_svg_data_points [(fv66, exD6)]).getLast? =
      some (fv66, (-1 : ℚ), "other") :=
  ⟨gen_svg_other, by norm_num [gen_svg_data_points, exD6]⟩

/-- Witness for C6 on a one-entry series with total 10 and sub-phases 11. -/
theorem other_metric_unclamped_witness :
    (fv66, exD6) ∈ [(fv66, exD6)] ∧
    (fv66, exD6.wholeUpdate - (exD6.circuitNetworkUpdate +
      exD6.transportLinesUpdate + exD6.fluidsUpdate + exD6.entityUpdate +
      exD6.electricNetworkUpdate + exD6.logisticManagerUpdate + exD6.trains +
      exD6.trainPathFinder), "other") ∈ gen_svg_data_points [(fv66, exD6)] :=
  ⟨List.mem_cons_self _ _,
    other_metric_unclamped.1 [(fv66, exD6)] fv66 exD6 (List.mem_cons_self _ _)⟩

/-- Claim C7: an empty SampleTable yields an empty checkpoint list and an
empty aggregation result; the computation is total, so no fault arises. -/
theorem empty_table_aggregation :
    checkpoints ([] : SampleTable) = [] ∧
    aggregate_maps ([] : SampleTable) = [] :=
  ⟨rfl, rfl⟩

/-- Claim C8: the reference-axis loop terminates under the configured
constants (fuel 100 is never exhausted) and produces the strictly
increasing list from 0.17.66 through 0.18.45 in which each step follows
the sentinel successor rule. -/
theorem iter_factorio_versions_terminates :
    ∃ l, iter_factorio_versions = some l ∧
      l.head? = some START_GRAPH_FV ∧
      l.getLast? = some END_GRAPH_FV ∧
      List.Chain' (fun a b => a.blt b = true) l ∧
      List.Chain' (fun a b => b = succVersion a) l := by
  refine ⟨iter_factorio_versions.getD [], ?_, ?_, ?_, ?_, ?_⟩
  · decide
  · decide
  · decide
  · rw [← chainB_iff]
    decide
  · have hch := (chainB_iff (fun a b => decide (b = succVersion a))
      (iter_factorio_versions.getD [])).mp (by decide)
    refine List.Chain'.imp ?_ hch
    intro a b hab
    exact of_decide_eq_true hab

/-- Claim C9: `aggregate_maps` is deterministic in the SampleTable: any two
sorted tables with the same per-map lookups (i.e. representing the same
mapping) produce identical output. -/
theorem aggregate_maps_deterministic (t1 t2 : SampleTable)
    (h1 : SortedTable t1) (h2 : SortedTable t2)
    (h : ∀ info, alookup info t1 = alookup info t2) :
    aggregate_maps t1 = aggregate_maps t2 := by
  have heq : t1 = t2 := by
    apply asorted_lookup_ext mi_blt_irrefl _ h1.1 h2.1 h
    intro a b c hx hy
    exact mi_blt_trans hx hy
  rw [heq]

/-- Witness for C9 at the spec's example table. -/
theorem aggregate_maps_deterministic_witness :
    SortedTable exTable ∧ aggregate_maps exTable = aggregate_maps exTable :=
  ⟨sortedTable_exTable,
    aggregate_maps_deterministic exTable exTable sortedTable_exTable
      sortedTable_exTable (fun _ => rfl)⟩

/-- Claim C10: the two independently built mappings have identical key sets
(exactly the checkpoints, each with a non-empty cohort), so the zip in
`aggregate_maps` pairs every checkpoint with its own cohort and series. -/
theorem zip_alignment (maps : SampleTable) (h : SortedTable maps) :
    (info_buckets maps).map Prod.fst = checkpoints maps ∧
    (checkpoint_buckets maps).map Prod.fst = checkpoints maps ∧
    (∀ c ∈ checkpoints maps, (process_checkpoint maps c).1 ≠ []) ∧
    ∀ c ∈ checkpoints maps,
      alookup c (aggregate_maps maps) =
        some ((process_checkpoint maps c).1, checkpoint_avg maps c) := by
  refine ⟨?_, ?_, fun c hc => cohort_nonempty_of_checkpoint maps h.2 hc,
    fun c hc => alookup_aggregate_maps maps h.2 hc⟩
  · rw [info_buckets_eq maps h.2]
    exact map_fst_map_pair _ _
  · rw [checkpoint_buckets_eq maps h.2]
    exact map_fst_map_pair _ _

/-- Witness for C10 at the spec's example table. -/
theorem zip_alignment_witness :
    SortedTable exTable ∧
    ((info_buckets exTable).map Prod.fst = checkpoints exTable ∧
    (checkpoint_buckets exTable).map Prod.fst = checkpoints exTable ∧
    (∀ c ∈ checkpoints exTable, (process_checkpoint exTable c).1 ≠ []) ∧
    ∀ c ∈ checkpoints exTable,
      alookup c (aggregate_maps exTable) =
        some ((process_checkpoint exTable c).1, checkpoint_avg exTable c)) :=
  ⟨sortedTable_exTable, zip_alignment exTable sortedTable_exTable⟩
